import Mathlib

/-!
Verification of `internal/commands/doc.go` from the konstraint repository.

The file embeds the pure core of the `doc` command: splitting comment text,
extracting `PolicyCommentBlock` records from a file's ordered comment list,
case-insensitive group deduplication, and rendering the markdown table.
Strings are modelled through their character lists; Go slice-indexing that can
panic at runtime is modelled by `Option` (`none` = runtime fault).  File
system access and the external OPA rego parser are modelled abstractly: a
rego file is an unreadable file, an unparsable file, or its ordered list of
comment texts.
-/

set_option maxHeartbeats 1000000

namespace Konstraint

/-- Per-character lowercasing of a string, written through its character
list so that it evaluates in the kernel. -/
def foldCase (s : String) : String :=
  ⟨s.data.map Char.toLower⟩

/-- Models Go `strings.EqualFold a b`: equality under simple case folding.
Simple case folding coincides with per-character lowercasing on ASCII, which
covers Kubernetes API group names; we model it as comparison of lowercased
strings. -/
def eqFold (a b : String) : Bool :=
  foldCase a == foldCase b

/-- Embeds `func contains(groups []string, group string) bool` from doc.go:
a linear scan returning true on the first `strings.EqualFold` match. -/
def contains : List String → String → Bool
  | [], _ => false
  | currentGroup :: rest, group => eqFold currentGroup group || contains rest group

/-- The loop body of `getDedupedGroups`: the accumulator `dedupedGroups`
starts empty and each group is appended only if `contains` fails on the
accumulator so far. -/
def getDedupedGroupsGo : List String → List String → List String
  | [], dedupedGroups => dedupedGroups
  | group :: rest, dedupedGroups =>
    if contains dedupedGroups group then getDedupedGroupsGo rest dedupedGroups
    else getDedupedGroupsGo rest (dedupedGroups ++ [group])

/-- Embeds `func getDedupedGroups(groups []string) []string` from doc.go. -/
def getDedupedGroups (groups : List String) : List String :=
  getDedupedGroupsGo groups []

/-- Splitting a character list on every occurrence of a separator character;
empty pieces are kept, and splitting the empty list yields one empty piece.
This is Go `strings.Split` for a single-character separator. -/
def splitOnChar (sep : Char) : List Char → List (List Char)
  | [] => [[]]
  | c :: rest =>
    if c == sep then [] :: splitOnChar sep rest
    else
      match splitOnChar sep rest with
      | [] => [[c]]
      | piece :: pieces => (c :: piece) :: pieces

/-- Models Go `strings.Split(s, sep)` for the single-character separators
`" "` and `"/"` used by doc.go. -/
def goSplit (s : String) (sep : Char) : List String :=
  (splitOnChar sep s.data).map fun piece => ⟨piece⟩

/-- Substring test on character lists: `sub` occurs contiguously in the
second argument. -/
def hasSubstr (sub : List Char) : List Char → Bool
  | [] => sub.isEmpty
  | c :: rest => sub.isPrefixOf (c :: rest) || hasSubstr sub rest

/-- Models Go `strings.Contains(s, sub)`. -/
def goContains (s sub : String) : Bool :=
  hasSubstr sub.data s.data

/-- The marker test of the comment loop in `getPolicyCommentBlocks`:
`strings.Contains(commentText, "@Kinds")`. -/
def isKindsMarker (commentText : String) : Bool :=
  goContains commentText "@Kinds"

/-- Models Go `strings.Trim(s, " ")`: remove leading and trailing space
characters (U+0020) only. -/
def trimSpaces (s : String) : String :=
  ⟨(((s.data.dropWhile fun c => c == ' ').reverse.dropWhile fun c => c == ' ').reverse)⟩

/-- Embeds `type PolicyCommentBlock struct` from doc.go. -/
structure PolicyCommentBlock where
  APIGroups : List String
  Kinds : List String
  Description : String
deriving DecidableEq, Repr

/-- The per-token body of the `kindGroups` loop: `strings.Split(kindGroup, "/")`
followed by the index accesses `kindTokens[0]` and `kindTokens[1]`.  `none`
models the runtime index-out-of-range panic when the split has fewer than two
elements (a token without `/`). -/
def splitKindGroup (kindGroup : String) : Option (String × String) :=
  match goSplit kindGroup '/' with
  | kindToken0 :: kindToken1 :: _ => some (kindToken0, kindToken1)
  | _ => none

/-- The `kindGroups` loop of the marker branch: each token is `/`-split and
indexed; the first faulting token aborts everything (`none` = panic).  The
pair list, read componentwise, is the `apiGroups` and `kinds` the Go loop
appends token by token. -/
def splitKindGroups : List String → Option (List (String × String))
  | [] => some []
  | kindGroup :: rest =>
    match splitKindGroup kindGroup with
    | none => none
    | some pair =>
      match splitKindGroups rest with
      | none => none
      | some pairs => some (pair :: pairs)

/-- The marker-comment parsing of `getPolicyCommentBlocks`:
`strings.Split(commentText, " ")` then the slice `kindGroups[2:]` (which
panics — `none` — when fewer than two tokens exist), then the `/`-split of
each remaining token. -/
def parseKinds (commentText : String) : Option (List (String × String)) :=
  let kindGroups := goSplit commentText ' '
  if kindGroups.length < 2 then none
  else splitKindGroups (kindGroups.drop 2)

/-- Builds the `PolicyCommentBlock` literal of the marker branch: deduped
apiGroups, kinds in token order, and `strings.Trim(description, " ")`. -/
def mkBlock (pairs : List (String × String)) (description : String) : PolicyCommentBlock :=
  { APIGroups := getDedupedGroups (pairs.map Prod.fst)
    Kinds := pairs.map Prod.snd
    Description := trimSpaces description }

/-- The comment loop of `getPolicyCommentBlocks`: the mutable `description`
variable holds the text of the most recent non-marker comment (it is not
cleared when a marker consumes it), and every marker comment appends one
record.  `none` models the index panic inside marker parsing. -/
def getPolicyCommentBlocksGo : List String → String → Option (List PolicyCommentBlock)
  | [], _ => some []
  | commentText :: rest, description =>
    if isKindsMarker commentText then
      match parseKinds commentText with
      | none => none
      | some pairs =>
        match getPolicyCommentBlocksGo rest description with
        | none => none
        | some blocks => some (mkBlock pairs description :: blocks)
    else
      getPolicyCommentBlocksGo rest commentText

/-- Embeds `func getPolicyCommentBlocks` from doc.go, applied to the ordered
comment list the OPA parser returns for a file; `description` starts at the
Go zero value `""`. -/
def getPolicyCommentBlocks (comments : List String) : Option (List PolicyCommentBlock) :=
  getPolicyCommentBlocksGo comments ""

/-- Spec-side helper: the most recently seen non-marker comment text of a
comment list, or `""` when there is none. -/
def lastDescription (comments : List String) : String :=
  (comments.filter fun c => !isKindsMarker c).getLastD ""

/-- Ghost state function for proofs: the value of the `description` variable
after the loop has processed a comment list, starting from `d`. -/
def descAfter : List String → String → String
  | [], d => d
  | c :: rest, d => if isKindsMarker c then descAfter rest d else descAfter rest c

/-- Models Go `strings.Join(elems, sep)`: the first element, then
`sep`-prefixed copies of the remaining elements. -/
def goJoin (elems : List String) (sep : String) : String :=
  match elems with
  | [] => ""
  | e :: rest => rest.foldl (fun acc x => acc ++ sep ++ x) e

/-- The row built for one record inside the loop of `getPolicyDocumentation`:
`fmt.Sprintf("|%s|%s|%s|\n", apiGroups, kinds, description)` with both lists
joined by `", "`. -/
def renderRow (b : PolicyCommentBlock) : String :=
  "|" ++ goJoin b.APIGroups ", " ++ "|" ++ goJoin b.Kinds ", " ++ "|" ++ b.Description ++ "|\n"

/-- The row loop of `getPolicyDocumentation`: `policyDocument` accumulates one
row per record, in record order. -/
def renderRowsGo : List PolicyCommentBlock → String → String
  | [], policyDocument => policyDocument
  | b :: rest, policyDocument => renderRowsGo rest (policyDocument ++ renderRow b)

/-- The string-building part of `getPolicyDocumentation`: title, blank line,
header row and separator row, then the record rows. -/
def buildPolicyDocument (policyCommentBlocks : List PolicyCommentBlock) : String :=
  renderRowsGo policyCommentBlocks
    ("# Policies\n\n" ++ "|API Groups|Kinds|Description|\n" ++ "|---|---|---|\n")

/-- The fatal error classes of the doc pipeline: file enumeration failure,
file read failure, rego syntax errors. -/
inductive DocError where
  | enumerateError
  | readError
  | parseError
deriving DecidableEq, Repr

/-- Modelled from the spec: a rego file as the pipeline observes it.  File
reading (`ioutil.ReadFile`) and the external OPA parser are outside the
source under verification, so a file is abstracted to the outcome they
produce: unreadable, unparsable, or parsed into its ordered comment list. -/
inductive RegoFile where
  | unreadable
  | unparsable
  | parsed (comments : List String)
deriving DecidableEq, Repr

/-- The per-file body of the loop in `getPolicyDocumentation`:
`ioutil.ReadFile` (read error aborts), then `getPolicyCommentBlocks`
(parse errors abort; the outer `none` is the index panic inside the
comment loop). -/
def processFile : RegoFile → Option (Except DocError (List PolicyCommentBlock))
  | .unreadable => some (.error .readError)
  | .unparsable => some (.error .parseError)
  | .parsed comments =>
    match getPolicyCommentBlocks comments with
    | none => none
    | some blocks => some (.ok blocks)

/-- The file loop of `getPolicyDocumentation`: `policyCommentBlocks`
accumulates each file's records by appending, in file order; the first
error aborts the loop. -/
def docLoopGo : List RegoFile → List PolicyCommentBlock →
    Option (Except DocError (List PolicyCommentBlock))
  | [], policyCommentBlocks => some (.ok policyCommentBlocks)
  | f :: rest, policyCommentBlocks =>
    match processFile f with
    | none => none
    | some (.error e) => some (.error e)
    | some (.ok blocks) => docLoopGo rest (policyCommentBlocks ++ blocks)

/-- Embeds `func getPolicyDocumentation` from doc.go.  Its first step,
`getRegoFilePaths`, is modelled from the spec as an abstract enumeration
result: either a failure or the ordered list of rego files. -/
def getPolicyDocumentation (enum : Except DocError (List RegoFile)) :
    Option (Except DocError String) :=
  match enum with
  | .error e => some (.error e)
  | .ok regoFiles =>
    match docLoopGo regoFiles [] with
    | none => none
    | some (.error e) => some (.error e)
    | some (.ok blocks) => some (.ok (buildPolicyDocument blocks))

/-- Embeds `func runDocCommand` from doc.go: on error from
`getPolicyDocumentation` it returns that error without writing; only on
success does it invoke the writer (the second component holds the written
content, `none` meaning the write was never attempted). -/
def runDocCommand (enum : Except DocError (List RegoFile)) :
    Option (Except DocError Unit × Option String) :=
  match getPolicyDocumentation enum with
  | none => none
  | some (.error e) => some (.error e, none)
  | some (.ok doc) => some (.ok (), some doc)

/-- Spec-side formulation of the dedup algorithm: keep a string exactly when
the lowercased form of no earlier element has been seen, i.e. keep the first
occurrence of each case-insensitive equivalence class, in first-seen order
and casing. -/
def firstOccAux (seen : List String) : List String → List String
  | [] => []
  | x :: xs =>
    if seen.contains (foldCase x) then firstOccAux seen xs
    else x :: firstOccAux (foldCase x :: seen) xs

/-- Spec-side: the first occurrences of the case-insensitive equivalence
classes of a list, in order. -/
def firstOccurrences (xs : List String) : List String :=
  firstOccAux [] xs

/-- Spec-side: plain concatenation of a list of strings, used to state the
shape of the rendered document. -/
def joinAll : List String → String
  | [] => ""
  | s :: rest => s ++ joinAll rest

/-- Spec-side: the substring of a token strictly before its first `/`. -/
def groupBeforeSlash (tok : String) : String :=
  ⟨tok.data.takeWhile fun c => c != '/'⟩

/-- Spec-side: the substring of a token strictly between its first `/` and
the following `/` (or the end of the token). -/
def kindAfterSlash (tok : String) : String :=
  ⟨(((tok.data.dropWhile fun c => c != '/').drop 1).takeWhile fun c => c != '/')⟩

theorem strData_append (a b : String) : (a ++ b).data = a.data ++ b.data := rfl

theorem strAppend_assoc (a b c : String) : a ++ b ++ c = a ++ (b ++ c) :=
  String.ext (by simp [strData_append])

theorem strAppend_empty (a : String) : a ++ "" = a :=
  String.ext (by simp [strData_append])

theorem renderRowsGo_eq (bs : List PolicyCommentBlock) :
    ∀ doc, renderRowsGo bs doc = doc ++ joinAll (bs.map renderRow) := by
  induction bs with
  | nil => intro doc; simp [renderRowsGo, joinAll, strAppend_empty]
  | cons b rest ih =>
    intro doc
    simp only [renderRowsGo, joinAll, List.map_cons, ih, strAppend_assoc]

/-- C7: for every (possibly empty) record list the renderer yields the title
line, a blank line, the header row, the separator row, then one row per
record in input order (apiGroups and kinds joined with `", "`, description
verbatim); the empty list yields exactly the three-line prefix and no data
rows.  Both functions involved are pure, so identical input yields
byte-identical output. -/
theorem buildPolicyDocument_shape :
    (∀ bs, buildPolicyDocument bs =
        "# Policies\n\n|API Groups|Kinds|Description|\n|---|---|---|\n" ++
          joinAll (bs.map renderRow)) ∧
    buildPolicyDocument [] =
      "# Policies\n\n|API Groups|Kinds|Description|\n|---|---|---|\n" := by
  have hlit : "# Policies\n\n" ++ "|API Groups|Kinds|Description|\n" ++ "|---|---|---|\n" =
      "# Policies\n\n|API Groups|Kinds|Description|\n|---|---|---|\n" := by decide
  constructor
  · intro bs
    unfold buildPolicyDocument
    rw [renderRowsGo_eq, hlit]
  · decide

/-- C9: whenever documentation generation fails (enumeration, read, or parse
error), `runDocCommand` returns that same error and the writer is never
invoked (the written-content component is `none`), so a pre-existing output
file is untouched. -/
theorem error_aborts_before_write (enum : Except DocError (List RegoFile)) (e : DocError)
    (h : getPolicyDocumentation enum = some (Except.error e)) :
    runDocCommand enum = some (Except.error e, none) := by
  unfold runDocCommand
  rw [h]

/-- Witness for C9 at a file whose rego syntax is invalid: the run aborts
with the parse error and nothing is written. -/
theorem error_aborts_before_write_witness :
    getPolicyDocumentation (Except.ok [RegoFile.unparsable]) =
        some (Except.error DocError.parseError) ∧
    runDocCommand (Except.ok [RegoFile.unparsable]) =
        some (Except.error DocError.parseError, none) :=
  ⟨rfl, error_aborts_before_write _ _ rfl⟩

theorem trim_decomp (l : List Char) :
    ∃ n m, l = List.replicate n ' ' ++
      (((l.dropWhile fun c => c == ' ').reverse.dropWhile fun c => c == ' ').reverse) ++
      List.replicate m ' ' := by
  obtain ⟨n, hn⟩ : ∃ n, l.takeWhile (fun c => c == ' ') = List.replicate n ' ' :=
    ⟨_, List.eq_replicate_of_mem fun b hb => by simpa using List.mem_takeWhile_imp hb⟩
  obtain ⟨m, hm⟩ : ∃ m,
      (l.dropWhile fun c => c == ' ').reverse.takeWhile (fun c => c == ' ') =
        List.replicate m ' ' :=
    ⟨_, List.eq_replicate_of_mem fun b hb => by simpa using List.mem_takeWhile_imp hb⟩
  refine ⟨n, m, ?_⟩
  have h3 : (l.dropWhile fun c => c == ' ') =
      ((l.dropWhile fun c => c == ' ').reverse.dropWhile (fun c => c == ' ')).reverse ++
        List.replicate m ' ' := by
    conv_lhs => rw [← List.reverse_reverse (l.dropWhile fun c => c == ' '),
      ← List.takeWhile_append_dropWhile (fun c => c == ' ')
        (l.dropWhile fun c => c == ' ').reverse]
    rw [List.reverse_append, hm, List.reverse_replicate]
  conv_lhs => rw [← List.takeWhile_append_dropWhile (fun c => c == ' ') l]
  conv_lhs => rw [hn, h3]
  rw [List.append_assoc]

/-- C10: a record's description is trimmed only of leading and trailing
space characters (U+0020): every string decomposes as leading spaces, the
trimmed core, and trailing spaces, so surrounding tabs or newlines survive
(`" \t desc\n "` keeps its tab and newline) and the stored description
appears verbatim as the row's last cell. -/
theorem trimSpaces_only_spaces :
    (∀ d : String, ∃ n m, d.data =
        List.replicate n ' ' ++ (trimSpaces d).data ++ List.replicate m ' ') ∧
    trimSpaces " \t desc\n " = "\t desc\n" ∧
    (∀ b : PolicyCommentBlock,
      renderRow b = ("|" ++ goJoin b.APIGroups ", " ++ "|" ++ goJoin b.Kinds ", " ++ "|") ++
        b.Description ++ "|\n") :=
  ⟨fun d => trim_decomp d.data, by decide, fun _ => rfl⟩

theorem splitOnChar_length_pos (sep : Char) (l : List Char) :
    1 ≤ (splitOnChar sep l).length := by
  induction l with
  | nil => simp [splitOnChar]
  | cons c rest ih =>
    simp only [splitOnChar]
    split
    · simp
    · split
      · simp
      · simp

theorem splitOnChar_length_two (sep : Char) (l : List Char) (h : sep ∈ l) :
    2 ≤ (splitOnChar sep l).length := by
  induction l with
  | nil => simp at h
  | cons c rest ih =>
    simp only [splitOnChar]
    rcases List.mem_cons.mp h with h1 | h1
    · have hc : (c == sep) = true := by simp [h1.symm]
      rw [if_pos hc]
      have := splitOnChar_length_pos sep rest
      simp
      omega
    · by_cases hc : (c == sep) = true
      · rw [if_pos hc]
        have := splitOnChar_length_pos sep rest
        simp
        omega
      · rw [if_neg hc]
        have h2 := ih h1
        cases heq : splitOnChar sep rest with
        | nil => rw [heq] at h2; simp at h2
        | cons p ps =>
          rw [heq] at h2
          simp at h2 ⊢
          omega

theorem splitKindGroup_isSome (tok : String) (h : '/' ∈ tok.data) :
    (splitKindGroup tok).isSome = true := by
  have h2 : 2 ≤ (goSplit tok '/').length := by
    unfold goSplit
    rw [List.length_map]
    exact splitOnChar_length_two '/' tok.data h
  rcases hl : goSplit tok '/' with _ | ⟨a, _ | ⟨b, t⟩⟩
  · rw [hl] at h2; simp at h2
  · rw [hl] at h2; simp at h2
  · simp [splitKindGroup, hl]

theorem splitKindGroups_isSome (ts : List String)
    (h : ∀ t ∈ ts, (splitKindGroup t).isSome = true) :
    (splitKindGroups ts).isSome = true := by
  induction ts with
  | nil => simp [splitKindGroups]
  | cons t rest ih =>
    obtain ⟨p, hp⟩ := Option.isSome_iff_exists.mp (h t (List.mem_cons_self t rest))
    obtain ⟨ps, hps⟩ := Option.isSome_iff_exists.mp
      (ih fun x hx => h x (List.mem_cons_of_mem t hx))
    simp [splitKindGroups, hp, hps]

/-- C4: when a marker comment space-splits into at least two tokens and every
token after the first two contains a `/`, all index accesses are in bounds
and parsing returns a value; the input `" @Kinds  x"` (whose double space
yields an empty token without `/`) makes the indexing fault at runtime
(`none` models the panic) instead of returning an error value. -/
theorem parseKinds_safety :
    (∀ c : String, 2 ≤ (goSplit c ' ').length →
      (∀ t ∈ (goSplit c ' ').drop 2, '/' ∈ t.data) →
      (parseKinds c).isSome = true) ∧
    parseKinds " @Kinds  x" = none := by
  constructor
  · intro c hlen htok
    unfold parseKinds
    rw [if_neg (by omega)]
    exact splitKindGroups_isSome _ fun t ht => splitKindGroup_isSome t (htok t ht)
  · decide

/-- Witness for C4 at a well-formed marker comment: the precondition holds
and parsing completes. -/
theorem parseKinds_safety_witness :
    2 ≤ (goSplit " @Kinds a/b" ' ').length ∧ (parseKinds " @Kinds a/b").isSome = true :=
  ⟨by decide, parseKinds_safety.1 " @Kinds a/b" (by decide) (by decide)⟩

theorem contains_eq_false_iff (l : List String) (g : String) :
    contains l g = false ↔ ∀ a ∈ l, eqFold a g = false := by
  induction l with
  | nil => simp [contains]
  | cons a rest ih => simp [contains, ih]

theorem contains_append (l1 l2 : List String) (g : String) :
    contains (l1 ++ l2) g = (contains l1 g || contains l2 g) := by
  induction l1 with
  | nil => simp [contains]
  | cons a rest ih => simp [contains, ih, Bool.or_assoc]

theorem eqFold_iff (a b : String) : eqFold a b = true ↔ foldCase a = foldCase b := by
  simp [eqFold]

theorem dedupGo_spec (xs : List String) : ∀ acc, ∃ out,
    getDedupedGroupsGo xs acc = acc ++ out ∧
    (∀ a ∈ acc, ∀ y ∈ out, eqFold a y = false) ∧
    List.Pairwise (fun a b => eqFold a b = false) out := by
  induction xs with
  | nil =>
    intro acc
    exact ⟨[], by simp [getDedupedGroupsGo], by simp, List.Pairwise.nil⟩
  | cons x rest ih =>
    intro acc
    by_cases h : contains acc x = true
    · obtain ⟨out, h1, h2, h3⟩ := ih acc
      exact ⟨out, by simp [getDedupedGroupsGo, h, h1], h2, h3⟩
    · have hfalse : contains acc x = false := by simpa using h
      obtain ⟨out, h1, h2, h3⟩ := ih (acc ++ [x])
      refine ⟨x :: out, ?_, ?_, ?_⟩
      · simp [getDedupedGroupsGo, hfalse, h1]
      · intro a ha y hy
        rcases List.mem_cons.mp hy with rfl | hy'
        · exact (contains_eq_false_iff acc y).mp hfalse a ha
        · exact h2 a (List.mem_append_left _ ha) y hy'
      · rw [List.pairwise_cons]
        exact ⟨fun y hy => h2 x (by simp) y hy, h3⟩

theorem dedupGo_of_pairwise (ys : List String) : ∀ acc,
    (∀ a ∈ acc, ∀ y ∈ ys, eqFold a y = false) →
    List.Pairwise (fun a b => eqFold a b = false) ys →
    getDedupedGroupsGo ys acc = acc ++ ys := by
  induction ys with
  | nil => intro acc _ _; simp [getDedupedGroupsGo]
  | cons y ys' ih =>
    intro acc hacc hp
    have hc : contains acc y = false :=
      (contains_eq_false_iff acc y).mpr fun a ha => hacc a ha y (by simp)
    rw [List.pairwise_cons] at hp
    have hrec := ih (acc ++ [y]) ?_ hp.2
    · simp [getDedupedGroupsGo, hc, hrec]
    · intro a ha z hz
      rcases List.mem_append.mp ha with ha' | ha'
      · exact hacc a ha' z (List.mem_cons_of_mem y hz)
      · rw [List.mem_singleton.mp ha']
        exact hp.1 z hz

/-- C5: the group dedup is idempotent: a list already free of
case-insensitive duplicates comes back unchanged (same order, same casing),
and `getDedupedGroups (getDedupedGroups xs) = getDedupedGroups xs` for every
list. -/
theorem getDedupedGroups_idempotent :
    (∀ xs, List.Pairwise (fun a b => eqFold a b = false) xs →
      getDedupedGroups xs = xs) ∧
    (∀ xs, getDedupedGroups (getDedupedGroups xs) = getDedupedGroups xs) := by
  have base : ∀ xs, List.Pairwise (fun a b => eqFold a b = false) xs →
      getDedupedGroups xs = xs := by
    intro xs hp
    unfold getDedupedGroups
    rw [dedupGo_of_pairwise xs [] (by simp) hp]
    simp
  refine ⟨base, fun xs => ?_⟩
  obtain ⟨out, h1, _, h3⟩ := dedupGo_spec xs []
  unfold getDedupedGroups
  rw [h1]
  simp only [List.nil_append]
  rw [dedupGo_of_pairwise out [] (by simp) h3]
  simp

/-- Witness for C5 at a duplicate-free list. -/
theorem getDedupedGroups_idempotent_witness :
    List.Pairwise (fun a b => eqFold a b = false) ["apps", "v1"] ∧
    getDedupedGroups ["apps", "v1"] = ["apps", "v1"] :=
  ⟨by decide, getDedupedGroups_idempotent.1 ["apps", "v1"] (by decide)⟩

theorem dedupGo_eq_firstOccAux (xs : List String) :
    ∀ acc seen, (∀ g : String, contains acc g = true ↔ foldCase g ∈ seen) →
      getDedupedGroupsGo xs acc = acc ++ firstOccAux seen xs := by
  induction xs with
  | nil => intro acc seen _; simp [getDedupedGroupsGo, firstOccAux]
  | cons x rest ih =>
    intro acc seen hinv
    by_cases h : contains acc x = true
    · have hmem : foldCase x ∈ seen := (hinv x).mp h
      have hseen : seen.contains (foldCase x) = true := List.elem_iff.mpr hmem
      simp [getDedupedGroupsGo, firstOccAux, h, hseen, hmem, ih _ _ hinv]
    · have hfalse : contains acc x = false := by simpa using h
      have hmem : foldCase x ∉ seen := fun hm =>
        absurd ((hinv x).mpr hm) (by simp [hfalse])
      have hseen : seen.contains (foldCase x) = false := by
        rw [← Bool.not_eq_true]
        intro hc
        exact hmem (List.elem_iff.mp hc)
      have hinv' : ∀ g : String,
          contains (acc ++ [x]) g = true ↔ foldCase g ∈ (foldCase x :: seen) := by
        intro g
        rw [contains_append]
        simp only [Bool.or_eq_true, hinv g, contains, Bool.or_false, eqFold_iff,
          List.mem_cons]
        constructor
        · rintro (hg | hg)
          · exact Or.inr hg
          · exact Or.inl hg.symm
        · rintro (hg | hg)
          · exact Or.inr hg.symm
          · exact Or.inl hg
      have hrec := ih (acc ++ [x]) (foldCase x :: seen) hinv'
      simp [getDedupedGroupsGo, firstOccAux, hfalse, hseen, hmem, hrec]

/-- C6: the dedup keeps exactly the first occurrence of each
case-insensitive equivalence class, in first-seen order with first-seen
casing; in particular `["apps", "Apps", "APPS"]` deduplicates to
`["apps"]`. -/
theorem getDedupedGroups_first_occurrences :
    (∀ xs, getDedupedGroups xs = firstOccurrences xs) ∧
    getDedupedGroups ["apps", "Apps", "APPS"] = ["apps"] := by
  constructor
  · intro xs
    unfold getDedupedGroups firstOccurrences
    rw [dedupGo_eq_firstOccAux xs [] [] (by simp [contains])]
    simp
  · decide

theorem descAfter_marker (c : String) (rest : List String) (d : String)
    (hm : isKindsMarker c = true) : descAfter (c :: rest) d = descAfter rest d := by
  simp [descAfter, hm]

theorem descAfter_nonmarker (c : String) (rest : List String) (d : String)
    (hm : isKindsMarker c = false) : descAfter (c :: rest) d = descAfter rest c := by
  simp [descAfter, hm]

theorem commentBlocksGo_cons_marker (c : String) (rest : List String) (d : String)
    (hm : isKindsMarker c = true) :
    getPolicyCommentBlocksGo (c :: rest) d =
      match parseKinds c with
      | none => none
      | some pairs =>
        match getPolicyCommentBlocksGo rest d with
        | none => none
        | some blocks => some (mkBlock pairs d :: blocks) := by
  simp [getPolicyCommentBlocksGo, hm]

theorem commentBlocksGo_cons_nonmarker (c : String) (rest : List String) (d : String)
    (hm : isKindsMarker c = false) :
    getPolicyCommentBlocksGo (c :: rest) d = getPolicyCommentBlocksGo rest c := by
  simp [getPolicyCommentBlocksGo, hm]

theorem commentBlocksGo_append (xs : List String) : ∀ (ys : List String) (d : String),
    getPolicyCommentBlocksGo (xs ++ ys) d =
      (getPolicyCommentBlocksGo xs d).bind fun bs1 =>
        (getPolicyCommentBlocksGo ys (descAfter xs d)).map fun bs2 => bs1 ++ bs2 := by
  induction xs with
  | nil =>
    intro ys d
    simp only [List.nil_append, getPolicyCommentBlocksGo, descAfter, Option.bind]
    cases getPolicyCommentBlocksGo ys d <;> simp
  | cons c rest ih =>
    intro ys d
    by_cases hm : isKindsMarker c = true
    · rw [List.cons_append, commentBlocksGo_cons_marker _ _ _ hm,
        commentBlocksGo_cons_marker _ _ _ hm, descAfter_marker _ _ _ hm]
      cases hp : parseKinds c with
      | none => simp
      | some pairs =>
        rw [ih]
        cases h1 : getPolicyCommentBlocksGo rest d with
        | none => simp
        | some bs1 =>
          cases h2 : getPolicyCommentBlocksGo ys (descAfter rest d) with
          | none => simp
          | some bs2 => simp
    · have hm' : isKindsMarker c = false := by simpa using hm
      rw [List.cons_append, commentBlocksGo_cons_nonmarker _ _ _ hm',
        commentBlocksGo_cons_nonmarker _ _ _ hm', descAfter_nonmarker _ _ _ hm']
      exact ih ys c

theorem descAfter_eq (cs : List String) : ∀ d,
    descAfter cs d = (cs.filter fun c => !isKindsMarker c).getLastD d := by
  induction cs with
  | nil => intro d; simp [descAfter]
  | cons c rest ih =>
    intro d
    by_cases hm : isKindsMarker c = true
    · rw [descAfter_marker _ _ _ hm, ih, List.filter_cons_of_neg (by simp [hm])]
    · have hm' : isKindsMarker c = false := by simpa using hm
      rw [descAfter_nonmarker _ _ _ hm', ih, List.filter_cons_of_pos (by simp [hm']),
        List.getLastD_cons]

/-- C2: the record built for a marker comment takes as description the most
recently seen non-marker comment before it (`lastDescription`), trimmed
(`mkBlock` stores `trimSpaces` of it); every later non-marker comment
overwrites the pending description, and with no preceding non-marker comment
`lastDescription` is `""`. -/
theorem marker_binds_last_description
    (pre post : List String) (c : String) (pairs : List (String × String))
    (bs1 bs2 : List PolicyCommentBlock)
    (hm : isKindsMarker c = true)
    (hp : parseKinds c = some pairs)
    (h1 : getPolicyCommentBlocks pre = some bs1)
    (h2 : getPolicyCommentBlocksGo post (lastDescription pre) = some bs2) :
    getPolicyCommentBlocks (pre ++ c :: post) =
      some (bs1 ++ mkBlock pairs (lastDescription pre) :: bs2) := by
  have hd : descAfter pre "" = lastDescription pre := by
    rw [descAfter_eq]; rfl
  unfold getPolicyCommentBlocks at h1 ⊢
  rw [commentBlocksGo_append, h1]
  simp [getPolicyCommentBlocksGo, hm, hp, hd, h2]

/-- Witness for C2 at the spec's example sequence: the first record gets
`"desc A"`, the second `"desc B"`. -/
theorem marker_binds_last_description_witness :
    getPolicyCommentBlocks ["desc A", "@Kinds g/K", "desc B", "@Kinds g2/K2"] =
      some [{ APIGroups := [], Kinds := [], Description := "desc A" },
            { APIGroups := [], Kinds := [], Description := "desc B" }] :=
  (marker_binds_last_description ["desc A"] ["desc B", "@Kinds g2/K2"] "@Kinds g/K"
    [] [] [{ APIGroups := [], Kinds := [], Description := "desc B" }]
    (by decide) (by decide) (by decide) (by decide)).trans (by decide)

/-- Counterexample to C1: after `["desc A", "@Kinds g/K", "@Kinds g2/K2"]`
the second marker's record has description `"desc A"` — the already-consumed
description is reused, not empty as the claim states. -/
theorem stale_description_counterexample :
    getPolicyCommentBlocks ["desc A", "@Kinds g/K", "@Kinds g2/K2"] =
      some [{ APIGroups := [], Kinds := [], Description := "desc A" },
            { APIGroups := [], Kinds := [], Description := "desc A" }] ∧
    ("desc A" : String) ≠ "" := by
  exact ⟨by decide, by decide⟩

/-- C1 amended: when two marker comments occur with no non-marker comment
between them, the second record's description is not empty but identical to
the first record's — the pending description is never cleared, so both equal
the (trimmed) most recent non-marker comment before the first marker. -/
theorem consecutive_markers_share_description
    (pre post : List String) (c1 c2 : String) (p1 p2 : List (String × String))
    (bs1 bs2 : List PolicyCommentBlock)
    (hm1 : isKindsMarker c1 = true) (hm2 : isKindsMarker c2 = true)
    (hp1 : parseKinds c1 = some p1) (hp2 : parseKinds c2 = some p2)
    (h1 : getPolicyCommentBlocks pre = some bs1)
    (h2 : getPolicyCommentBlocksGo post (lastDescription pre) = some bs2) :
    getPolicyCommentBlocks (pre ++ c1 :: c2 :: post) =
      some (bs1 ++ mkBlock p1 (lastDescription pre) ::
        mkBlock p2 (lastDescription pre) :: bs2) ∧
    (mkBlock p1 (lastDescription pre)).Description =
      (mkBlock p2 (lastDescription pre)).Description := by
  refine ⟨?_, rfl⟩
  have hd : descAfter pre "" = lastDescription pre := by
    rw [descAfter_eq]; rfl
  unfold getPolicyCommentBlocks at h1 ⊢
  rw [commentBlocksGo_append, h1]
  simp [getPolicyCommentBlocksGo, hm1, hm2, hp1, hp2, hd, h2]

/-- Witness for the amended C1 at the counterexample input: both records
carry `"desc A"`. -/
theorem consecutive_markers_share_description_witness :
    getPolicyCommentBlocks (["desc A"] ++ "@Kinds g/K" :: "@Kinds g2/K2" :: []) =
      some ([] ++ mkBlock [] (lastDescription ["desc A"]) ::
        mkBlock [] (lastDescription ["desc A"]) :: []) ∧
    (mkBlock [] (lastDescription ["desc A"])).Description =
      (mkBlock [] (lastDescription ["desc A"])).Description :=
  consecutive_markers_share_description ["desc A"] [] "@Kinds g/K" "@Kinds g2/K2"
    [] [] [] [] (by decide) (by decide) (by decide) (by decide) (by decide) (by decide)

theorem splitOnChar_head (sep : Char) (l : List Char) :
    ∃ t, splitOnChar sep l = (l.takeWhile fun c => c != sep) :: t := by
  induction l with
  | nil => exact ⟨[], rfl⟩
  | cons c rest ih =>
    by_cases h : (c == sep) = true
    · refine ⟨splitOnChar sep rest, ?_⟩
      simp [splitOnChar, h, List.takeWhile_cons, bne]
    · obtain ⟨t, ht⟩ := ih
      refine ⟨t, ?_⟩
      simp [splitOnChar, h, ht, List.takeWhile_cons, bne]

theorem splitOnChar_of_mem (sep : Char) (l : List Char) (h : sep ∈ l) :
    splitOnChar sep l = (l.takeWhile fun c => c != sep) ::
      splitOnChar sep ((l.dropWhile fun c => c != sep).drop 1) := by
  induction l with
  | nil => simp at h
  | cons c rest ih =>
    by_cases hc : (c == sep) = true
    · simp [splitOnChar, hc, List.takeWhile_cons, List.dropWhile_cons, bne]
    · have hrest : sep ∈ rest := by
        rcases List.mem_cons.mp h with h1 | h1
        · exact absurd (beq_iff_eq.mpr h1.symm) hc
        · exact h1
      simp [splitOnChar, hc, ih hrest, List.takeWhile_cons, List.dropWhile_cons, bne]

/-- C3 amended: each remaining token is split on `/`; the record's apiGroups
entry is the substring before the first `/`, and the kinds entry is the
substring strictly between the first `/` and the next `/` (or the token's
end) — element 1 of the split, not everything after the first `/`: the token
`"a/b/c"` contributes kind `"b"`. -/
theorem splitKindGroup_slash_components (tok : String) (h : '/' ∈ tok.data) :
    splitKindGroup tok = some (groupBeforeSlash tok, kindAfterSlash tok) := by
  unfold splitKindGroup goSplit
  rw [splitOnChar_of_mem '/' tok.data h]
  obtain ⟨t, ht⟩ := splitOnChar_head '/' ((tok.data.dropWhile fun c => c != '/').drop 1)
  rw [ht]
  simp [groupBeforeSlash, kindAfterSlash]

/-- Counterexample to C3 as stated: the token `"a/b/c"` yields kind `"b"`
(the segment between the first two slashes), not `"b/c"`. -/
theorem slash_split_counterexample :
    getPolicyCommentBlocks [" @Kinds a/b/c"] =
      some [{ APIGroups := ["a"], Kinds := ["b"], Description := "" }] ∧
    ("b" : String) ≠ "b/c" := by
  exact ⟨by decide, by decide⟩

/-- Witness for the amended C3 at the token `"a/b/c"`. -/
theorem splitKindGroup_slash_components_witness :
    splitKindGroup "a/b/c" = some (groupBeforeSlash "a/b/c", kindAfterSlash "a/b/c") :=
  splitKindGroup_slash_components "a/b/c" (by decide)

theorem docLoopGo_parsed (css : List (List String)) (bss : List (List PolicyCommentBlock))
    (h : List.Forall₂ (fun cs bs => getPolicyCommentBlocks cs = some bs) css bss) :
    ∀ acc, docLoopGo (css.map RegoFile.parsed) acc =
      some (Except.ok (acc ++ bss.flatten)) := by
  induction h with
  | nil => intro acc; simp [docLoopGo]
  | @cons cs bs css' bss' hcb _ ih =>
    intro acc
    simp only [List.map_cons, docLoopGo, processFile, hcb]
    rw [ih (acc ++ bs)]
    simp [List.append_assoc]

/-- C8: for files F1..Fn whose extractions yield record lists R(1)..R(n), the
pipeline renders exactly the rows of the concatenation R(1) ++ ... ++ R(n),
in that order: no stage sorts, drops, or reorders records. -/
theorem pipeline_preserves_order (css : List (List String))
    (bss : List (List PolicyCommentBlock))
    (h : List.Forall₂ (fun cs bs => getPolicyCommentBlocks cs = some bs) css bss) :
    getPolicyDocumentation (Except.ok (css.map RegoFile.parsed)) =
      some (Except.ok
        ("# Policies\n\n|API Groups|Kinds|Description|\n|---|---|---|\n" ++
          joinAll (bss.flatten.map renderRow))) := by
  have hbuild : buildPolicyDocument bss.flatten =
      "# Policies\n\n|API Groups|Kinds|Description|\n|---|---|---|\n" ++
        joinAll (bss.flatten.map renderRow) := by
    unfold buildPolicyDocument
    rw [renderRowsGo_eq]
    have hlit : "# Policies\n\n" ++ "|API Groups|Kinds|Description|\n" ++
        "|---|---|---|\n" =
        "# Policies\n\n|API Groups|Kinds|Description|\n|---|---|---|\n" := by decide
    rw [hlit]
  have hloop := docLoopGo_parsed css bss h []
  simp [getPolicyDocumentation, hloop, hbuild]

/-- Witness for C8 at two files: the two records appear in file order. -/
theorem pipeline_preserves_order_witness :
    getPolicyDocumentation (Except.ok
        (([[" @Kinds apps/Deployment"], ["d1", " @Kinds core/Pod"]].map RegoFile.parsed))) =
      some (Except.ok
        ("# Policies\n\n|API Groups|Kinds|Description|\n|---|---|---|\n" ++
          joinAll ((([[{ APIGroups := ["apps"], Kinds := ["Deployment"], Description := "" }],
            [{ APIGroups := ["core"], Kinds := ["Pod"], Description := "d1" }]] :
              List (List PolicyCommentBlock)).flatten).map renderRow))) :=
  pipeline_preserves_order _ _
    (List.forall₂_cons.mpr ⟨by decide, List.forall₂_cons.mpr ⟨by decide, List.Forall₂.nil⟩⟩)

end Konstraint
